import Mathlib

/-! # UnitTester (source/testcmd/unit_tester.h)

A shallow embedding of the hierarchical assertion recorder `UnitTester` and of its
scope guard `UnitTesterSection`, with the properties of the section stack, the
assertion counter, the failure list and the printed lines.

The header declares the data members and defines `UnitTesterSection` and
`UnitTester::section` inline.  The bodies of `UnitTester::UnitTester`,
`UnitTester::~UnitTester`, `UnitTester::test` and `UnitTester::section_name` are only
declared there; they are modelled from the specification and marked as such.
-/

namespace UnitTest

/-! ## Data model -/

/-- Data members of `struct UnitTester`:
`std::vector<std::string> sections`, `std::vector<std::string> errors` and
`int test_count = 0`.  A `std::vector` is a list whose back is the list's tail end.
The counter is a C++ `int`: a value from `INT_MIN` to `INT_MAX`.  The field has the type
of the integers; the recorder starts at 0 and the only call that changes the counter,
`UnitTester.test`, always leaves an `int` value in it. -/
structure UnitTester where
  sections : List String
  errors : List String
  test_count : Int
  deriving DecidableEq, Repr

/-- One line (or block header) written to the standard output stream. -/
inductive OutLine where
  | header
  | assertion (text : String)
  | summary (total : Int) (failures : Nat)
  | failure (text : String)
  deriving DecidableEq, Repr

/-- A recorder together with what it has written to the standard output so far. -/
structure Session where
  tester : UnitTester
  out : List OutLine
  deriving DecidableEq, Repr

/-! ## The type `int` and the `std::vector` operations used by the header -/

/-- Largest value of the type `int` of `int test_count` (32 bits). -/
def INT_MAX : Int := 2147483647

/-- Smallest value of the type `int` (32 bits, two's complement). -/
def INT_MIN : Int := -2147483648

/-- The `int` that holds the integer `x`: `x` itself when it is in the range of `int`, and
otherwise the value congruent to `x` modulo `2^32` in that range (the wrap-around of two's
complement arithmetic). -/
def wrapInt (x : Int) : Int :=
  (x + 2147483648) % 4294967296 - 2147483648

/-- The call `v.push_back(x)`: appends `x` at the back. -/
def push_back (v : List String) (x : String) : List String :=
  v ++ [x]

/-- The call `v.pop_back()`: removes the last element.  On an empty vector the behaviour is
undefined, which is `none` here. -/
def pop_back (v : List String) : Option (List String) :=
  if v.isEmpty then none else some v.dropLast

/-! ## `UnitTesterSection` and `UnitTester::section` (from the header) -/

/-- The constructor `UnitTesterSection(UnitTester* t, const std::string& section_name)`, whose
body is `tester->sections.push_back(section_name)`; the effect on `*t` is returned. -/
def UnitTesterSection.ctor (t : UnitTester) (section_name : String) : UnitTester :=
  { t with sections := push_back t.sections section_name }

/-- The destructor `~UnitTesterSection()`, whose body is `tester->sections.pop_back()`. -/
def UnitTesterSection.dtor (t : UnitTester) : Option UnitTester :=
  (pop_back t.sections).map (fun v => { t with sections := v })

/-- The member `UnitTester::section(section_name)`:
`return UnitTesterSection(this, section_name);`.  The returned object is the one the caller
holds (`auto s = tester.section(name);` constructs a single object), so the constructor runs
once here and the destructor once, at the end of the scope of `s`. -/
def UnitTester.section (t : UnitTester) (section_name : String) : UnitTester :=
  UnitTesterSection.ctor t section_name

/-! ## Members whose bodies are not in the header -/

/-- Modelled from the spec: the body of `UnitTester::section_name()` is not in the header;
this is what it computes from `sections`.  The spec's `render()`: "if empty, the empty string; otherwise
`"[" + join(elements, "::") + "] "`"; the header's comment gives the example
`[Position::EnteringWin]`. -/
def render (path : List String) : String :=
  if path.isEmpty then "" else "[" ++ String.intercalate "::" path ++ "] "

/-- The member `UnitTester::section_name()`, declared in the header as returning the name of
the current section, nesting included: the rendering of `sections`. -/
def UnitTester.section_name (t : UnitTester) : String :=
  render t.sections

/-- Modelled from the spec: the body of the constructor `UnitTester::UnitTester()` is not in
the header.  It "initializes an empty SectionPath, empty failure list, test count 0" and
"immediately emits a header line"; the recorder and the emitted line are returned. -/
def UnitTester.ctor : UnitTester × OutLine :=
  ({ sections := [], errors := [], test_count := 0 }, OutLine.header)

/-- Modelled from the spec: the body of `UnitTester::test(message, b)` is not in the header.
It "increments the total-assertion counter; computes `render()` of the current SectionPath and
prepends it to `message`", prints the line `<sectionPrefix><message> ... <passed|failed>`, and
"if `condition` is false, appends" the section-qualified message to the failure list.  The
recorder after the call and the printed line are returned.  The counter is the header's
`int test_count`: the increment gives `test_count + 1` as long as that is at most `INT_MAX`;
past `INT_MAX` the C++ increment overflows, and the counter is given the wrapped-around `int`
here so that the call stays defined (no `int` value is `INT_MAX + 1`). -/
def UnitTester.test (t : UnitTester) (message : String) (b : Bool) : UnitTester × OutLine :=
  let m := t.section_name ++ message
  ({ t with
      test_count := wrapInt (t.test_count + 1)
      errors := if b then t.errors else push_back t.errors m },
   OutLine.assertion (m ++ " ... " ++ (if b then "passed" else "failed")))

/-- Modelled from the spec: the body of the destructor `UnitTester::~UnitTester()` is not in
the header.  It "prints a summary: total assertion count, count of failures, and for each
recorded failure, its full section-qualified message, in the order the failures occurred". -/
def UnitTester.dtor (t : UnitTester) : List OutLine :=
  OutLine.summary t.test_count t.errors.length :: t.errors.map OutLine.failure

/-! ## Runs: sequences of calls made on one recorder -/

/-- One call made by the test code on the recorder: `auto s = tester.section(name);`
(a section is entered), the end of the scope of such an `s` (its destructor runs), or
`tester.test(message, b);`. -/
inductive Op where
  | enter (name : String)
  | leave
  | test (message : String) (b : Bool)
  deriving DecidableEq, Repr

/-- Effect of one call; `none` is the undefined behaviour of `pop_back` on an empty vector. -/
def step (w : Session) : Op → Option Session
  | Op.enter name => some { w with tester := UnitTester.section w.tester name }
  | Op.leave => (UnitTesterSection.dtor w.tester).map (fun t => { w with tester := t })
  | Op.test message b =>
      let r := UnitTester.test w.tester message b
      some { tester := r.1, out := w.out ++ [r.2] }

/-- Effect of a sequence of calls, in order. -/
def run (w : Session) : List Op → Option Session
  | [] => some w
  | op :: rest => (step w op).bind (fun w' => run w' rest)

/-- The session right after `UnitTester tester;`: the freshly constructed recorder and the
header line it printed. -/
def fresh : Session :=
  { tester := UnitTester.ctor.1, out := [UnitTester.ctor.2] }

/-- What the standard output holds once the recorder of the session is destroyed. -/
def finish (w : Session) : List OutLine :=
  w.out ++ UnitTester.dtor w.tester

/-! ## Vocabulary of the properties -/

/-- Nesting depth after `ops`, starting at depth `d`; `none` when some `leave` has no section
left to close. -/
def depthAfter : Nat → List Op → Option Nat
  | d, [] => some d
  | d, Op.enter _ :: rest => depthAfter (d + 1) rest
  | 0, Op.leave :: _ => none
  | d + 1, Op.leave :: rest => depthAfter d rest
  | d, Op.test _ _ :: rest => depthAfter d rest

/-- A sequence is well nested when every `leave` closes a section entered earlier in the
sequence and every section entered is closed by the end. -/
def WellNested (ops : List Op) : Prop :=
  depthAfter 0 ops = some 0

instance (ops : List Op) : Decidable (WellNested ops) :=
  inferInstanceAs (Decidable (depthAfter 0 ops = some 0))

/-- Number of `leave` calls in `ops` that close no section entered in `ops`. -/
def unmatchedLeaves : List Op → Nat
  | [] => 0
  | Op.enter _ :: rest => unmatchedLeaves rest - 1
  | Op.leave :: rest => unmatchedLeaves rest + 1
  | Op.test _ _ :: rest => unmatchedLeaves rest

/-- Names of the sections entered in `ops` and not closed in `ops`, in order of entry: an
`enter` is closed exactly when the calls after it contain a `leave` that closes no section
entered after it. -/
def openNames : List Op → List String
  | [] => []
  | Op.enter name :: rest =>
      if unmatchedLeaves rest = 0 then name :: openNames rest else openNames rest
  | Op.leave :: rest => openNames rest
  | Op.test _ _ :: rest => openNames rest

/-- Number of `test` calls in `ops`. -/
def countTests : List Op → Nat
  | [] => 0
  | Op.test _ _ :: rest => countTests rest + 1
  | _ :: rest => countTests rest

/-- Number of per-assertion lines in an output. -/
def assertionLines : List OutLine → Nat
  | [] => 0
  | OutLine.assertion _ :: rest => assertionLines rest + 1
  | _ :: rest => assertionLines rest

/-- The names of `names` with `"::"` between consecutive ones. -/
def joinNames : List String → String
  | [] => ""
  | [a] => a
  | a :: b :: rest => a ++ "::" ++ joinNames (b :: rest)

/-- The expected failure list of the calls `ops` made after the calls `done`: one entry per
`test` call whose condition is false, in call order, made of the rendering of the sections
open at the time of the call followed by the message. -/
def failureLines : List Op → List Op → List String
  | _, [] => []
  | done, Op.test message b :: rest =>
      let tail := failureLines (done ++ [Op.test message b]) rest
      if b then tail
      else (render (openNames done) ++ message) :: tail
  | done, op :: rest => failureLines (done ++ [op]) rest

/-! ## Section objects -/

/-- An object of type `UnitTesterSection`, bound to the recorder of the session.  Its only
data member is the pointer `UnitTester* tester`: the section name given to the constructor is
pushed on the path and is not kept in the object.  The field `pushed` is not a data member;
it records that constructor argument, so that a property can speak of the section that pushed
a given name. -/
structure UnitTesterSection where
  pushed : String
  deriving DecidableEq, Repr

/-- The statement `auto s = tester.section(name);`: the object `s` and the recorder after the
constructor has run. -/
def UnitTester.sectionObject (t : UnitTester) (name : String) :
    UnitTesterSection × UnitTester :=
  (⟨name⟩, UnitTester.section t name)

/-- End of the lifetime of the section object `s`: the destructor `~UnitTesterSection()` runs
on the recorder.  Its body, `tester->sections.pop_back()`, reads nothing of `s` but the
pointer. -/
def UnitTesterSection.destroy (_s : UnitTesterSection) (t : UnitTester) : Option UnitTester :=
  UnitTesterSection.dtor t

end UnitTest

namespace UnitTest

/-! ## Lemmas on single calls -/

theorem pop_back_push_back (v : List String) (x : String) :
    pop_back (push_back v x) = some v := by
  simp [pop_back, push_back]

theorem pop_back_of_ne_nil (v : List String) (h : v ≠ []) :
    pop_back v = some v.dropLast := by
  cases v with
  | nil => exact absurd rfl h
  | cons a l => simp [pop_back]

theorem step_enter (w : Session) (name : String) :
    step w (Op.enter name) =
      some { tester := { w.tester with sections := w.tester.sections ++ [name] },
             out := w.out } := by
  simp [step, UnitTester.section, UnitTesterSection.ctor, push_back]

theorem step_leave (w : Session) (h : w.tester.sections ≠ []) :
    step w Op.leave =
      some { tester := { w.tester with sections := w.tester.sections.dropLast },
             out := w.out } := by
  simp [step, UnitTesterSection.dtor, pop_back_of_ne_nil _ h]

theorem step_test (w : Session) (message : String) (b : Bool) :
    step w (Op.test message b) =
      some { tester :=
               { sections := w.tester.sections
                 errors := if b then w.tester.errors
                           else w.tester.errors ++ [render w.tester.sections ++ message]
                 test_count := wrapInt (w.tester.test_count + 1) },
             out := w.out ++
               [OutLine.assertion (render w.tester.sections ++ message ++ " ... " ++
                 (if b then "passed" else "failed"))] } := by
  simp [step, UnitTester.test, UnitTester.section_name, push_back]

/-! ## Lemmas on runs -/

theorem run_append (w : Session) (a b : List Op) :
    run w (a ++ b) = (run w a).bind (fun w' => run w' b) := by
  induction a generalizing w with
  | nil => simp [run]
  | cons op rest ih =>
    simp only [List.cons_append, run]
    cases step w op with
    | none => simp
    | some w1 => simpa using ih w1

theorem depthAfter_append (d : Nat) (a b : List Op) :
    depthAfter d (a ++ b) = (depthAfter d a).bind (fun k => depthAfter k b) := by
  induction a generalizing d with
  | nil => simp [depthAfter]
  | cons op rest ih =>
    cases op with
    | enter name => simpa [depthAfter] using ih (d + 1)
    | leave =>
      cases d with
      | zero => simp [depthAfter]
      | succ d => simpa [depthAfter] using ih d
    | test message b => simpa [depthAfter] using ih d

/-- Along a sequence that never closes more than is open, the unmatched `leave` calls are at
most the starting depth, and the final depth counts the sections still open. -/
theorem depthAfter_facts (ops : List Op) (d k : Nat) (h : depthAfter d ops = some k) :
    unmatchedLeaves ops ≤ d ∧ k + unmatchedLeaves ops = d + (openNames ops).length := by
  induction ops generalizing d with
  | nil =>
    simp only [depthAfter, Option.some.injEq] at h
    simp [unmatchedLeaves, openNames, h]
  | cons op rest ih =>
    cases op with
    | enter name =>
      simp only [depthAfter] at h
      have := ih (d + 1) h
      simp only [unmatchedLeaves, openNames]
      split <;> simp <;> omega
    | leave =>
      cases d with
      | zero => simp [depthAfter] at h
      | succ d =>
        simp only [depthAfter] at h
        have := ih d h
        simp only [unmatchedLeaves, openNames]
        omega
    | test message b =>
      simp only [depthAfter] at h
      have := ih d h
      simp only [unmatchedLeaves, openNames]
      omega

/-- The section path after a run: the sections closed by the unmatched `leave` calls are
removed from the back of the starting path and the sections left open are appended. -/
theorem run_sections (ops : List Op) (w : Session)
    (h : unmatchedLeaves ops ≤ w.tester.sections.length) :
    ∃ w', run w ops = some w' ∧
      w'.tester.sections =
        w.tester.sections.take (w.tester.sections.length - unmatchedLeaves ops)
          ++ openNames ops := by
  induction ops generalizing w with
  | nil => exact ⟨w, rfl, by simp [unmatchedLeaves, openNames]⟩
  | cons op rest ih =>
    cases op with
    | enter name =>
      simp only [unmatchedLeaves] at h
      simp only [run, step_enter, Option.some_bind, unmatchedLeaves, openNames]
      obtain ⟨w', hrun, hsec⟩ := ih
        { tester := { w.tester with sections := w.tester.sections ++ [name] }, out := w.out }
        (by simp; omega)
      refine ⟨w', hrun, ?_⟩
      rw [hsec]
      simp only [List.length_append, List.length_singleton]
      by_cases hu : unmatchedLeaves rest = 0
      · rw [if_pos hu, hu, List.take_of_length_le (by simp)]
        simp
      · rw [if_neg hu]
        congr 1
        rw [List.take_append_of_le_length (by omega)]
        congr 1
        omega
    | leave =>
      simp only [unmatchedLeaves] at h
      have hne : w.tester.sections ≠ [] := by
        intro h0
        rw [h0] at h
        simp at h
      simp only [run, step_leave w hne, Option.some_bind, unmatchedLeaves, openNames]
      obtain ⟨w', hrun, hsec⟩ := ih
        { tester := { w.tester with sections := w.tester.sections.dropLast }, out := w.out }
        (by simp; omega)
      refine ⟨w', hrun, ?_⟩
      rw [hsec]
      congr 1
      simp only [List.length_dropLast]
      rw [List.dropLast_eq_take, List.take_take]
      congr 1
      omega
    | test message b =>
      simp only [unmatchedLeaves] at h
      simp only [run, step_test, Option.some_bind, unmatchedLeaves, openNames]
      exact ih _ h

theorem depthAfter_shift (ops : List Op) (d k j : Nat) (h : depthAfter d ops = some k) :
    depthAfter (d + j) ops = some (k + j) := by
  induction ops generalizing d with
  | nil =>
    simp only [depthAfter, Option.some.injEq] at h
    simp [depthAfter, h]
  | cons op rest ih =>
    cases op with
    | enter name =>
      simp only [depthAfter] at h
      have := ih (d + 1) h
      simpa [depthAfter, Nat.add_right_comm] using this
    | leave =>
      cases d with
      | zero => simp [depthAfter] at h
      | succ d =>
        simp only [depthAfter] at h
        have := ih d h
        rw [Nat.add_right_comm]
        simpa [depthAfter] using this
    | test message b =>
      simp only [depthAfter] at h
      simpa [depthAfter] using ih d h

theorem wellNested_wrap (name : String) (ops : List Op) (h : WellNested ops) :
    WellNested (Op.enter name :: (ops ++ [Op.leave])) := by
  unfold WellNested at *
  have h1 := depthAfter_shift ops 0 0 1 h
  simp only [Nat.zero_add] at h1
  simp [depthAfter, depthAfter_append, h1]

/-- A sequence that never closes more than is open runs without undefined behaviour from the
fresh recorder, and the path it reaches is the list of the sections left open. -/
theorem run_fresh_sections (ops : List Op) (k : Nat) (h : depthAfter 0 ops = some k) :
    ∃ w, run fresh ops = some w ∧ w.tester.sections = openNames ops := by
  have hf := depthAfter_facts ops 0 k h
  obtain ⟨w, hrun, hsec⟩ := run_sections ops fresh (by omega)
  exact ⟨w, hrun, by simpa [fresh, UnitTester.ctor] using hsec⟩

/-- A well-nested sequence runs without undefined behaviour from any state and gives the
section path back as it found it. -/
theorem run_wellNested (ops : List Op) (w : Session) (h : WellNested ops) :
    ∃ w', run w ops = some w' ∧ w'.tester.sections = w.tester.sections := by
  have hf := depthAfter_facts ops 0 0 h
  obtain ⟨w', hrun, hsec⟩ := run_sections ops w (by omega)
  refine ⟨w', hrun, ?_⟩
  have h0 : unmatchedLeaves ops = 0 := by omega
  have hn : openNames ops = [] := List.eq_nil_of_length_eq_zero (by omega)
  simpa [h0, hn] using hsec

/-- What a run does to the counter, to the printed lines and, when it makes no `test` call,
to the failure list. -/
theorem wrapInt_of_range (x : Int) (h1 : INT_MIN ≤ x) (h2 : x ≤ INT_MAX) : wrapInt x = x := by
  unfold INT_MIN at h1
  unfold INT_MAX at h2
  unfold wrapInt
  omega

theorem wrapInt_range (x : Int) : INT_MIN ≤ wrapInt x ∧ wrapInt x ≤ INT_MAX := by
  unfold INT_MIN INT_MAX wrapInt
  omega

theorem depthAfter_replicate_test (n d : Nat) (message : String) (b : Bool) :
    depthAfter d (List.replicate n (Op.test message b)) = some d := by
  induction n with
  | zero => simp [depthAfter]
  | succ n ih => simpa [List.replicate_succ, depthAfter] using ih

theorem countTests_replicate_test (n : Nat) (message : String) (b : Bool) :
    countTests (List.replicate n (Op.test message b)) = n := by
  induction n with
  | zero => rfl
  | succ n ih => simp [List.replicate_succ, countTests, ih]

theorem run_frame (ops : List Op) (w w' : Session) (h : run w ops = some w') :
    w'.tester.test_count =
      (if countTests ops = 0 then w.tester.test_count
       else wrapInt (w.tester.test_count + (countTests ops : Int))) ∧
    assertionLines w'.out = assertionLines w.out + countTests ops ∧
    (countTests ops = 0 → w'.tester.errors = w.tester.errors ∧ w'.out = w.out) := by
  induction ops generalizing w with
  | nil =>
    simp only [run, Option.some.injEq] at h
    subst h
    simp [countTests]
  | cons op rest ih =>
    cases op with
    | enter name =>
      simp only [run, step_enter, Option.some_bind] at h
      simpa [countTests] using ih _ h
    | leave =>
      simp only [run, Option.bind_eq_some] at h
      obtain ⟨w1, h1, h2⟩ := h
      simp only [step, UnitTesterSection.dtor, Option.map_eq_some'] at h1
      obtain ⟨t1, ⟨v, _, hv⟩, ht1⟩ := h1
      subst hv
      subst ht1
      simpa [countTests] using ih _ h2
    | test message b =>
      simp only [run, step_test, Option.some_bind] at h
      have := ih _ h
      have hl : ∀ (l : List OutLine) (x : String),
          assertionLines (l ++ [OutLine.assertion x]) = assertionLines l + 1 := by
        intro l x
        induction l with
        | nil => rfl
        | cons a l ihl => cases a <;> simp [assertionLines, ihl]
      simp only [hl] at this
      obtain ⟨hc, hlines, _⟩ := this
      simp only [countTests, Nat.cast_add, Nat.cast_one]
      refine ⟨?_, by omega, by omega⟩
      rw [hc, if_neg (Nat.succ_ne_zero _)]
      by_cases h0 : countTests rest = 0
      · simp [h0]
      · rw [if_neg h0]
        unfold wrapInt
        omega

/-- After a run from the fresh recorder the counter is the `int` that holds the number of
`test` calls, and the output has one per-assertion line for each of them. -/
theorem run_fresh_count (ops : List Op) (w : Session) (h : run fresh ops = some w) :
    w.tester.test_count = wrapInt (countTests ops : Int) ∧
    assertionLines w.out = countTests ops := by
  obtain ⟨hc, hl, _⟩ := run_frame ops fresh w h
  have h0 : fresh.tester.test_count = 0 := rfl
  have h1 : assertionLines fresh.out = 0 := rfl
  rw [h0] at hc
  rw [h1] at hl
  refine ⟨?_, by omega⟩
  rw [hc]
  by_cases hz : countTests ops = 0
  · rw [if_pos hz, hz]
    rfl
  · rw [if_neg hz, Int.zero_add]

/-- A run of `n` calls of `test` on the fresh recorder. -/
theorem run_fresh_tests (n : Nat) (message : String) (b : Bool) :
    ∃ w, run fresh (List.replicate n (Op.test message b)) = some w ∧
      w.tester.test_count = wrapInt (n : Int) ∧ assertionLines w.out = n := by
  obtain ⟨w, hrun, _⟩ := run_wellNested (List.replicate n (Op.test message b)) fresh
    (depthAfter_replicate_test n 0 message b)
  obtain ⟨hc, hl⟩ := run_fresh_count _ w hrun
  rw [countTests_replicate_test] at hc hl
  exact ⟨w, hrun, hc, hl⟩

theorem intercalate_go (s : String) (rest : List String) (acc b : String) :
    String.intercalate.go (acc ++ s ++ b) s rest = acc ++ s ++ String.intercalate.go b s rest := by
  induction rest generalizing b with
  | nil => rfl
  | cons c rest ih =>
    simp only [String.intercalate.go]
    rw [← ih (b ++ s ++ c)]
    simp [String.append_assoc]

theorem intercalate_eq_joinNames (names : List String) :
    String.intercalate "::" names = joinNames names := by
  cases names with
  | nil => rfl
  | cons a rest =>
    simp only [String.intercalate]
    induction rest generalizing a with
    | nil => rfl
    | cons b rest ih =>
      simp only [String.intercalate.go, joinNames]
      rw [intercalate_go, ih b]

/-- The failure list after the calls `rest`, made after the calls `done`. -/
theorem run_errors (rest done : List Op) (w : Session) (k : Nat)
    (hd : depthAfter 0 (done ++ rest) = some k) (hw : run fresh done = some w) :
    ∃ w', run w rest = some w' ∧
      w'.tester.errors = w.tester.errors ++ failureLines done rest := by
  induction rest generalizing done w with
  | nil => exact ⟨w, rfl, by simp [failureLines]⟩
  | cons op rest ih =>
    have hd1 : depthAfter 0 ((done ++ [op]) ++ rest) = some k := by simpa using hd
    rw [depthAfter_append] at hd1
    obtain ⟨j, hj, _⟩ := Option.bind_eq_some.mp hd1
    obtain ⟨w1, hw1, _⟩ := run_fresh_sections (done ++ [op]) j hj
    rw [depthAfter_append] at hj
    obtain ⟨i, hi, _⟩ := Option.bind_eq_some.mp hj
    obtain ⟨w0, hw0, hsec⟩ := run_fresh_sections done i hi
    rw [hw] at hw0
    cases hw0
    have hrun1 := hw1
    rw [run_append, hw] at hw1
    have hstep : step w op = some w1 := by
      simpa [run] using hw1
    obtain ⟨w', hrun, herr⟩ := ih (done ++ [op]) w1 (by simpa using hd) hrun1
    refine ⟨w', by simp [run, hstep, hrun], ?_⟩
    rw [herr]
    cases op with
    | enter name =>
      rw [step_enter] at hstep
      cases hstep
      simp [failureLines]
    | leave =>
      simp only [step, UnitTesterSection.dtor, Option.map_eq_some'] at hstep
      obtain ⟨t1, ⟨v, _, hv⟩, ht1⟩ := hstep
      subst hv
      subst ht1
      simp [failureLines]
    | test message b =>
      rw [step_test] at hstep
      cases hstep
      cases b <;> simp [failureLines, hsec]

/-! ## The section stack -/

/-- C1: entering a section and then exiting it gives the recorder back as it was, for every
state and every name; and for every well-nested sequence of calls made between the enter and
the matching exit, the run succeeds and the section path after the exit equals the path
before the enter. -/
theorem section_exit_restores_path (w : Session) (name : String) (ops : List Op)
    (h : WellNested ops) :
    UnitTesterSection.dtor (UnitTester.section w.tester name) = some w.tester ∧
    ∃ w', run w (Op.enter name :: (ops ++ [Op.leave])) = some w' ∧
      w'.tester.sections = w.tester.sections := by
  refine ⟨?_, run_wellNested _ w (wellNested_wrap name ops h)⟩
  simp [UnitTesterSection.dtor, UnitTester.section, UnitTesterSection.ctor, pop_back_push_back]

theorem section_exit_restores_path_witness :
    WellNested [Op.enter "B", Op.test "t" false, Op.leave, Op.test "u" true] ∧
    (UnitTesterSection.dtor (UnitTester.section (⟨["A"], [], 0⟩ : UnitTester) "")
        = some ⟨["A"], [], 0⟩ ∧
      ∃ w', run ⟨⟨["A"], [], 0⟩, []⟩
          (Op.enter "" ::
            ([Op.enter "B", Op.test "t" false, Op.leave, Op.test "u" true] ++ [Op.leave]))
          = some w' ∧
        w'.tester.sections = ["A"]) :=
  ⟨by decide, section_exit_restores_path ⟨⟨["A"], [], 0⟩, []⟩ "" _ (by decide)⟩

/-- C2: starting from a freshly constructed recorder, after every prefix `pre` of a
well-nested sequence `ops` the run has succeeded and the section path is exactly the list of
the names of the sections entered and not yet exited, in order of entry; after the whole
sequence the path is empty. -/
theorem path_is_open_sections (ops pre post : List Op) (h : WellNested ops)
    (hp : ops = pre ++ post) :
    (∃ w, run fresh pre = some w ∧ w.tester.sections = openNames pre) ∧
    (∃ w, run fresh ops = some w ∧ w.tester.sections = []) := by
  constructor
  · subst hp
    unfold WellNested at h
    rw [depthAfter_append] at h
    obtain ⟨j, hj, _⟩ := Option.bind_eq_some.mp h
    exact run_fresh_sections pre j hj
  · obtain ⟨w, hrun, hsec⟩ := run_wellNested ops fresh h
    exact ⟨w, hrun, by simpa [fresh, UnitTester.ctor] using hsec⟩

theorem path_is_open_sections_witness :
    WellNested [Op.enter "A", Op.enter "B", Op.leave, Op.enter "C", Op.test "t" true,
      Op.leave, Op.leave] ∧
    [Op.enter "A", Op.enter "B", Op.leave, Op.enter "C", Op.test "t" true, Op.leave, Op.leave]
      = [Op.enter "A", Op.enter "B", Op.leave, Op.enter "C", Op.test "t" true] ++
        [Op.leave, Op.leave] ∧
    ((∃ w, run fresh [Op.enter "A", Op.enter "B", Op.leave, Op.enter "C", Op.test "t" true]
          = some w ∧
        w.tester.sections =
          openNames [Op.enter "A", Op.enter "B", Op.leave, Op.enter "C", Op.test "t" true]) ∧
      (∃ w, run fresh [Op.enter "A", Op.enter "B", Op.leave, Op.enter "C", Op.test "t" true,
          Op.leave, Op.leave] = some w ∧
        w.tester.sections = [])) :=
  ⟨by decide, by decide,
    path_is_open_sections _ _ [Op.leave, Op.leave] (by decide) (by decide)⟩

/-- C3: the rendering of the empty path is the empty string; the rendering of a non-empty path
is `[`, the names joined with `::` in order, then `] `; the path `["A","B"]` renders as
`[A::B] `; and `section_name()` is the rendering of the recorder's path. -/
theorem section_name_format :
    render [] = "" ∧
    (∀ (a : String) (rest : List String),
      render (a :: rest) = "[" ++ joinNames (a :: rest) ++ "] ") ∧
    render ["A", "B"] = "[A::B] " ∧
    (∀ t : UnitTester, UnitTester.section_name t = render t.sections) := by
  refine ⟨rfl, ?_, by decide, fun _ => rfl⟩
  intro a rest
  simp [render, intercalate_eq_joinNames]

/-! ## The counter and the failure list -/

/-- C4 (amended): after a well-nested sequence of calls with at most `INT_MAX` `test` calls
on a freshly constructed recorder, `test_count` is the number of `test` calls of the
sequence; a `test` call made while the counter is an `int` below `INT_MAX` adds exactly 1 to
it whatever its condition, and entering or exiting a section leaves it as it is. -/
theorem test_count_counts_tests (ops : List Op) (t : UnitTester) (h : WellNested ops)
    (hn : (countTests ops : Int) ≤ INT_MAX)
    (ht1 : INT_MIN ≤ t.test_count) (ht2 : t.test_count < INT_MAX) :
    (∃ w, run fresh ops = some w ∧ w.tester.test_count = (countTests ops : Int)) ∧
    (∀ (message : String) (b : Bool),
      (UnitTester.test t message b).1.test_count = t.test_count + 1) ∧
    (∀ (t : UnitTester) (name : String),
      (UnitTester.section t name).test_count = t.test_count) ∧
    (∀ (a : String) (rest errors : List String) (c : Int),
      (UnitTesterSection.dtor ⟨a :: rest, errors, c⟩).map (fun t => t.test_count) = some c) := by
  refine ⟨?_, ?_, fun _ _ => rfl, ?_⟩
  · obtain ⟨w, hrun, _⟩ := run_wellNested ops fresh h
    refine ⟨w, hrun, ?_⟩
    rw [(run_fresh_count ops w hrun).1]
    exact wrapInt_of_range _ (by unfold INT_MIN; omega) hn
  · intro message b
    show wrapInt (t.test_count + 1) = t.test_count + 1
    exact wrapInt_of_range _ (by omega) (by omega)
  · intro a rest errors c
    simp [UnitTesterSection.dtor, pop_back]

theorem test_count_counts_tests_witness :
    WellNested [Op.test "a" false, Op.enter "A", Op.test "b" true, Op.enter "B",
      Op.test "c" false, Op.leave, Op.leave] ∧
    (countTests [Op.test "a" false, Op.enter "A", Op.test "b" true, Op.enter "B",
      Op.test "c" false, Op.leave, Op.leave] : Int) ≤ INT_MAX ∧
    INT_MIN ≤ (⟨["A"], [], 2147483646⟩ : UnitTester).test_count ∧
    (⟨["A"], [], 2147483646⟩ : UnitTester).test_count < INT_MAX ∧
    ((∃ w, run fresh [Op.test "a" false, Op.enter "A", Op.test "b" true, Op.enter "B",
          Op.test "c" false, Op.leave, Op.leave] = some w ∧
        w.tester.test_count =
          (countTests [Op.test "a" false, Op.enter "A", Op.test "b" true, Op.enter "B",
            Op.test "c" false, Op.leave, Op.leave] : Int)) ∧
      (∀ (message : String) (b : Bool),
        (UnitTester.test ⟨["A"], [], 2147483646⟩ message b).1.test_count
          = (⟨["A"], [], 2147483646⟩ : UnitTester).test_count + 1) ∧
      (∀ (t : UnitTester) (name : String),
        (UnitTester.section t name).test_count = t.test_count) ∧
      (∀ (a : String) (rest errors : List String) (c : Int),
        (UnitTesterSection.dtor ⟨a :: rest, errors, c⟩).map (fun t => t.test_count)
          = some c)) :=
  ⟨by decide, by decide, by decide, by decide,
    test_count_counts_tests _ ⟨["A"], [], 2147483646⟩ (by decide) (by decide) (by decide)
      (by decide)⟩

/-- C4 as stated fails: `test_count` is an `int`.  After `2^31` calls of `test` on a freshly
constructed recorder (a well-nested sequence) the counter is not `2^31`, the number of `test`
calls; and the call of `test` made when the counter is `INT_MAX` does not add 1 to it. -/
theorem test_count_counts_tests_counterexample :
    WellNested (List.replicate 2147483648 (Op.test "t" true)) ∧
    countTests (List.replicate 2147483648 (Op.test "t" true)) = 2147483648 ∧
    (∃ w, run fresh (List.replicate 2147483648 (Op.test "t" true)) = some w ∧
      w.tester.test_count ≤ INT_MAX ∧
      w.tester.test_count ≠
        ((countTests (List.replicate 2147483648 (Op.test "t" true)) : Nat) : Int)) ∧
    (UnitTester.test ⟨[], [], 2147483647⟩ "t" true).1.test_count ≤ INT_MAX ∧
    (UnitTester.test ⟨[], [], 2147483647⟩ "t" true).1.test_count ≠ 2147483647 + 1 := by
  have hcount := countTests_replicate_test 2147483648 "t" true
  refine ⟨depthAfter_replicate_test 2147483648 0 "t" true, hcount, ?_, ?_, ?_⟩
  · obtain ⟨w, hrun, hc, _⟩ := run_fresh_tests 2147483648 "t" true
    have hr := (wrapInt_range ((2147483648 : Nat) : Int)).2
    rw [← hc] at hr
    refine ⟨w, hrun, hr, ?_⟩
    rw [hcount]
    unfold INT_MAX at hr
    intro h0
    rw [h0] at hr
    omega
  · exact (wrapInt_range _).2
  · have hr := (wrapInt_range ((2147483647 : Int) + 1)).2
    unfold INT_MAX at hr
    intro h0
    have h1 : (UnitTester.test ⟨[], [], 2147483647⟩ "t" true).1.test_count
        = wrapInt ((2147483647 : Int) + 1) := rfl
    rw [h1] at h0
    omega

/-- C5: after a well-nested sequence of calls on a freshly constructed recorder, the failure
list is, in call order, the list of the strings `render (path at the call) ++ message` over
exactly the `test` calls whose condition is false; a `test` call whose condition is true
leaves the list as it is, and one whose condition is false appends its entry at the back. -/
theorem errors_are_failed_tests (ops : List Op) (h : WellNested ops) :
    (∃ w, run fresh ops = some w ∧ w.tester.errors = failureLines [] ops) ∧
    (∀ (t : UnitTester) (message : String),
      (UnitTester.test t message true).1.errors = t.errors) ∧
    (∀ (t : UnitTester) (message : String),
      (UnitTester.test t message false).1.errors
        = t.errors ++ [render t.sections ++ message]) := by
  refine ⟨?_, fun _ _ => rfl, fun _ _ => rfl⟩
  obtain ⟨w, hrun, herr⟩ := run_errors ops [] fresh 0 (by simpa using h) rfl
  exact ⟨w, hrun, by simpa [fresh, UnitTester.ctor] using herr⟩

theorem errors_are_failed_tests_witness :
    WellNested [Op.test "a" false, Op.test "a" false, Op.enter "A", Op.test "b" true,
      Op.enter "B", Op.test "c" false, Op.leave, Op.test "a" false, Op.leave] ∧
    ((∃ w, run fresh [Op.test "a" false, Op.test "a" false, Op.enter "A", Op.test "b" true,
          Op.enter "B", Op.test "c" false, Op.leave, Op.test "a" false, Op.leave] = some w ∧
        w.tester.errors =
          failureLines [] [Op.test "a" false, Op.test "a" false, Op.enter "A",
            Op.test "b" true, Op.enter "B", Op.test "c" false, Op.leave, Op.test "a" false,
            Op.leave]) ∧
      (∀ (t : UnitTester) (message : String),
        (UnitTester.test t message true).1.errors = t.errors) ∧
      (∀ (t : UnitTester) (message : String),
        (UnitTester.test t message false).1.errors
          = t.errors ++ [render t.sections ++ message])) :=
  ⟨by decide, errors_are_failed_tests _ (by decide)⟩

/-! ## Scenarios, construction and printed lines -/

/-- C6: on a freshly constructed recorder, entering `Position`, inside it entering
`EnteringWin`, calling `test("t1", true)` and `test("t2", false)`, then exiting both sections
gives `test_count = 2`, a failure list whose only entry is `[Position::EnteringWin] t2`, an
empty section path, and a summary of 2 assertions and 1 failure with that one failure line. -/
theorem scenario_nested_sections :
    run fresh [Op.enter "Position", Op.enter "EnteringWin", Op.test "t1" true,
        Op.test "t2" false, Op.leave, Op.leave]
      = some
          { tester :=
              { sections := [], errors := ["[Position::EnteringWin] t2"], test_count := 2 }
            out := [OutLine.header,
                    OutLine.assertion "[Position::EnteringWin] t1 ... passed",
                    OutLine.assertion "[Position::EnteringWin] t2 ... failed"] } ∧
    ["[Position::EnteringWin] t2"].length = 1 ∧
    UnitTester.dtor
        { sections := [], errors := ["[Position::EnteringWin] t2"], test_count := 2 }
      = [OutLine.summary 2 1, OutLine.failure "[Position::EnteringWin] t2"] := by
  refine ⟨by decide, by decide, by decide⟩

/-- C7: from every state with path `p` and for every name `n`, the path inside a first
section `n` is `p ++ [n]`, and after that section is exited and `n` is entered again the path
is `p ++ [n]` again, with the same rendered prefix; on a fresh recorder with `n = "A"` the
prefix inside either section is `[A] `, which is not `[A::A] `, and the two `test` calls
print their lines with that prefix. -/
theorem sequential_sections_independent (w : Session) (n m1 m2 : String) (b1 b2 : Bool) :
    (∃ w1 w2,
      run w [Op.enter n] = some w1 ∧
      run w [Op.enter n, Op.test m1 b1, Op.leave, Op.enter n] = some w2 ∧
      w1.tester.sections = w.tester.sections ++ [n] ∧
      w2.tester.sections = w.tester.sections ++ [n] ∧
      UnitTester.section_name w2.tester = UnitTester.section_name w1.tester) ∧
    (∃ w1 w2 w3,
      run fresh [Op.enter "A"] = some w1 ∧
      run fresh [Op.enter "A", Op.test m1 b1, Op.leave, Op.enter "A"] = some w2 ∧
      run fresh [Op.enter "A", Op.test m1 b1, Op.leave, Op.enter "A", Op.test m2 b2, Op.leave]
        = some w3 ∧
      UnitTester.section_name w1.tester = "[A] " ∧
      UnitTester.section_name w2.tester = "[A] " ∧
      w3.out = [OutLine.header,
        OutLine.assertion ("[A] " ++ m1 ++ " ... " ++ (if b1 then "passed" else "failed")),
        OutLine.assertion ("[A] " ++ m2 ++ " ... " ++ (if b2 then "passed" else "failed"))]) ∧
    "[A] " ≠ "[A::A] " := by
  have hA : render ["A"] = "[A] " := by decide
  have hstep : ∀ (v : Session) (name m : String) (b : Bool),
      run v [Op.enter name, Op.test m b, Op.leave]
        = some
            { tester :=
                { sections := v.tester.sections
                  errors := if b then v.tester.errors
                            else v.tester.errors ++ [render (v.tester.sections ++ [name]) ++ m]
                  test_count := wrapInt (v.tester.test_count + 1) }
              out := v.out ++
                [OutLine.assertion (render (v.tester.sections ++ [name]) ++ m ++ " ... " ++
                  (if b then "passed" else "failed"))] } := by
    intro v name m b
    simp only [run, step_enter, Option.some_bind, step_test]
    rw [step_leave _ (by simp)]
    simp
  have hrun2 : ∀ (v : Session) (name m : String) (b : Bool),
      ∃ v2, run v [Op.enter name, Op.test m b, Op.leave, Op.enter name] = some v2 ∧
        v2.tester.sections = v.tester.sections ++ [name] := by
    intro v name m b
    have h4 := run_append v [Op.enter name, Op.test m b, Op.leave] [Op.enter name]
    rw [hstep] at h4
    simp only [List.cons_append, List.nil_append, Option.some_bind, run, step_enter] at h4
    exact ⟨_, h4, rfl⟩
  have hrun1 : ∀ (v : Session) (name : String),
      ∃ v1, run v [Op.enter name] = some v1 ∧
        v1.tester.sections = v.tester.sections ++ [name] := by
    intro v name
    have h1 : run v [Op.enter name] = step v (Op.enter name) := by
      cases hs : step v (Op.enter name) <;> simp [run, hs]
    exact ⟨_, h1.trans (step_enter v name), rfl⟩
  refine ⟨?_, ?_, by decide⟩
  · obtain ⟨v1, hv1, hs1⟩ := hrun1 w n
    obtain ⟨v2, hv2, hs2⟩ := hrun2 w n m1 b1
    exact ⟨v1, v2, hv1, hv2, hs1, hs2, by simp [UnitTester.section_name, hs1, hs2]⟩
  · obtain ⟨v1, hv1, hs1⟩ := hrun1 fresh "A"
    obtain ⟨v2, hv2, hs2⟩ := hrun2 fresh "A" m1 b1
    have h6 := run_append fresh [Op.enter "A", Op.test m1 b1, Op.leave]
      [Op.enter "A", Op.test m2 b2, Op.leave]
    rw [hstep, Option.some_bind, hstep] at h6
    have hf : fresh.tester.sections ++ ["A"] = ["A"] := rfl
    rw [hf] at hs1 hs2
    refine ⟨v1, v2, _, hv1, hv2, h6, ?_, ?_, ?_⟩
    · rw [UnitTester.section_name, hs1, hA]
    · rw [UnitTester.section_name, hs2, hA]
    · simp [fresh, UnitTester.ctor, hA]

/-- C8: a freshly constructed recorder has an empty section path, an empty failure list and
`test_count = 0`; a well-nested run that makes no `test` call succeeds and leaves it so, and
the summary then printed reports a total of 0 and 0 failures, with no failure line. -/
theorem no_test_run_summary (ops : List Op) (h : WellNested ops) (h0 : countTests ops = 0) :
    fresh.tester = { sections := [], errors := [], test_count := 0 } ∧
    ∃ w, run fresh ops = some w ∧
      w.tester = { sections := [], errors := [], test_count := 0 } ∧
      UnitTester.dtor w.tester = [OutLine.summary 0 0] ∧
      finish w = [OutLine.header, OutLine.summary 0 0] := by
  refine ⟨rfl, ?_⟩
  obtain ⟨w, hrun, hsec⟩ := run_wellNested ops fresh h
  obtain ⟨hcount, _, hrest⟩ := run_frame ops fresh w hrun
  obtain ⟨herr, hout⟩ := hrest h0
  have hw : w = fresh := by
    obtain ⟨⟨s, e, c⟩, o⟩ := w
    simp only [fresh, UnitTester.ctor, h0] at hsec hcount herr hout ⊢
    simp at hcount
    simp [hsec, hcount, herr, hout]
  subst hw
  exact ⟨fresh, hrun, rfl, rfl, rfl⟩

theorem no_test_run_summary_witness :
    WellNested [Op.enter "A", Op.enter "", Op.leave, Op.leave, Op.enter "A", Op.leave] ∧
    countTests [Op.enter "A", Op.enter "", Op.leave, Op.leave, Op.enter "A", Op.leave] = 0 ∧
    (fresh.tester = { sections := [], errors := [], test_count := 0 } ∧
      ∃ w, run fresh [Op.enter "A", Op.enter "", Op.leave, Op.leave, Op.enter "A", Op.leave]
          = some w ∧
        w.tester = { sections := [], errors := [], test_count := 0 } ∧
        UnitTester.dtor w.tester = [OutLine.summary 0 0] ∧
        finish w = [OutLine.header, OutLine.summary 0 0]) :=
  ⟨by decide, by decide, no_test_run_summary _ (by decide) (by decide)⟩

/-- C9: for every recorder with section path `p` and every name, the path right after
`section(name)` is `p ++ [name]`: one element longer, its first elements are those of `p`, its
last element is the name; the failure list and the counter are as before. -/
theorem section_appends_name (t : UnitTester) (name : String) :
    (UnitTester.section t name).sections = t.sections ++ [name] ∧
    (UnitTester.section t name).sections.length = t.sections.length + 1 ∧
    (UnitTester.section t name).sections.take t.sections.length = t.sections ∧
    (UnitTester.section t name).sections.getLast? = some name ∧
    (∀ out : List OutLine,
      step ⟨t, out⟩ (Op.enter name)
        = some ⟨{ sections := t.sections ++ [name], errors := t.errors,
                  test_count := t.test_count }, out⟩) := by
  refine ⟨rfl, ?_, ?_, ?_, fun _ => rfl⟩ <;>
    simp [UnitTester.section, UnitTesterSection.ctor, push_back]

/-- C10 (amended): every call `test(message, b)` appends exactly one line to the output, and
that line is the rendering of the current path, then the message, then ` ... `, then `passed`
when `b` is true and `failed` when it is false; over every run from a freshly constructed
recorder that makes at most `INT_MAX` `test` calls, the number of per-assertion lines printed
equals `test_count`. -/
theorem test_prints_one_line (w : Session) (message : String) (b : Bool) (ops : List Op)
    (h : (depthAfter 0 ops).isSome = true) (hn : (countTests ops : Int) ≤ INT_MAX) :
    (∃ w', step w (Op.test message b) = some w' ∧
      w'.out = w.out ++ [OutLine.assertion
        (render w.tester.sections ++ message ++ " ... " ++
          (if b then "passed" else "failed"))]) ∧
    (∃ w', run fresh ops = some w' ∧
      (assertionLines w'.out : Int) = w'.tester.test_count) := by
  refine ⟨⟨_, step_test w message b, rfl⟩, ?_⟩
  obtain ⟨k, hk⟩ := Option.isSome_iff_exists.mp h
  obtain ⟨w', hrun, _⟩ := run_fresh_sections ops k hk
  obtain ⟨hcount, hlines⟩ := run_fresh_count ops w' hrun
  refine ⟨w', hrun, ?_⟩
  rw [hcount, hlines]
  exact (wrapInt_of_range _ (by unfold INT_MIN; omega) hn).symm

theorem test_prints_one_line_witness :
    (depthAfter 0 [Op.test "a" true, Op.enter "A", Op.test "b" false]).isSome = true ∧
    (countTests [Op.test "a" true, Op.enter "A", Op.test "b" false] : Int) ≤ INT_MAX ∧
    ((∃ w', step ⟨⟨["A", "B"], [], 5⟩, [OutLine.header]⟩ (Op.test "t" false) = some w' ∧
        w'.out = [OutLine.header] ++ [OutLine.assertion
          (render ["A", "B"] ++ "t" ++ " ... " ++
            (if false = true then "passed" else "failed"))]) ∧
      (∃ w', run fresh [Op.test "a" true, Op.enter "A", Op.test "b" false] = some w' ∧
        (assertionLines w'.out : Int) = w'.tester.test_count)) :=
  ⟨by decide, by decide,
    test_prints_one_line ⟨⟨["A", "B"], [], 5⟩, [OutLine.header]⟩ "t" false _ (by decide)
      (by decide)⟩

/-- C10 as stated fails: `test_count` is an `int`.  The run of `2^31` calls of `test` on a
freshly constructed recorder prints `2^31` per-assertion lines, and the counter, at most
`INT_MAX`, is not the number of lines printed. -/
theorem test_prints_one_line_counterexample :
    (depthAfter 0 (List.replicate 2147483648 (Op.test "t" true))).isSome = true ∧
    ∃ w, run fresh (List.replicate 2147483648 (Op.test "t" true)) = some w ∧
      assertionLines w.out = 2147483648 ∧
      w.tester.test_count ≤ INT_MAX ∧
      (assertionLines w.out : Int) ≠ w.tester.test_count := by
  refine ⟨?_, ?_⟩
  · rw [depthAfter_replicate_test 2147483648 0 "t" true]
    rfl
  · obtain ⟨w, hrun, hc, hl⟩ := run_fresh_tests 2147483648 "t" true
    have hr := (wrapInt_range ((2147483648 : Nat) : Int)).2
    rw [← hc] at hr
    refine ⟨w, hrun, hl, hr, ?_⟩
    rw [hl]
    unfold INT_MAX at hr
    intro h0
    rw [← h0] at hr
    omega

/-! ## Exits, and what each call leaves alone -/

/-- A run made of `test` calls only succeeds and leaves the section path as it was. -/
theorem run_tests_sections (calls : List (String × Bool)) (w : Session) :
    ∃ w', run w (calls.map (fun x => Op.test x.1 x.2)) = some w' ∧
      w'.tester.sections = w.tester.sections := by
  induction calls generalizing w with
  | nil => exact ⟨w, rfl, rfl⟩
  | cons x rest ih =>
    simp only [List.map_cons, run, step_test, Option.some_bind]
    obtain ⟨w', hrun, hsec⟩ := ih
      { tester :=
          { sections := w.tester.sections
            errors := if x.2 then w.tester.errors
                      else w.tester.errors ++ [render w.tester.sections ++ x.1]
            test_count := wrapInt (w.tester.test_count + 1) }
        out := w.out ++
          [OutLine.assertion (render w.tester.sections ++ x.1 ++ " ... " ++
            (if x.2 then "passed" else "failed"))] }
    exact ⟨w', hrun, hsec⟩

/-- C11: for every non-empty section path `p`, the exit of any section object bound to the
recorder, whatever name it pushed on entry, succeeds and leaves exactly `p` without its last
element; so after `a` then `b` are entered, the exit of the section that pushed `a` is not
detected as out of order and removes `b`, the innermost open name. -/
theorem exit_removes_innermost (s : UnitTesterSection) (p errors : List String) (c : Int)
    (t : UnitTester) (a b : String) (h : p ≠ []) :
    UnitTesterSection.destroy s ⟨p, errors, c⟩ = some ⟨p.dropLast, errors, c⟩ ∧
    UnitTesterSection.dtor ⟨p, errors, c⟩ = some ⟨p.dropLast, errors, c⟩ ∧
    (UnitTester.sectionObject t a).1.pushed = a ∧
    UnitTesterSection.destroy (UnitTester.sectionObject t a).1
        (UnitTester.sectionObject (UnitTester.sectionObject t a).2 b).2
      = some ⟨t.sections ++ [a], t.errors, t.test_count⟩ := by
  have hd : UnitTesterSection.dtor ⟨p, errors, c⟩ = some ⟨p.dropLast, errors, c⟩ := by
    simp [UnitTesterSection.dtor, pop_back_of_ne_nil p h]
  refine ⟨hd, hd, rfl, ?_⟩
  simp [UnitTesterSection.destroy, UnitTester.sectionObject, UnitTester.section,
    UnitTesterSection.ctor, UnitTesterSection.dtor, pop_back, push_back]

theorem exit_removes_innermost_witness :
    ["A", "B"] ≠ [] ∧
    (UnitTesterSection.destroy ⟨"A"⟩ ⟨["A", "B"], ["e"], 3⟩
        = some ⟨["A", "B"].dropLast, ["e"], 3⟩ ∧
      UnitTesterSection.dtor ⟨["A", "B"], ["e"], 3⟩ = some ⟨["A", "B"].dropLast, ["e"], 3⟩ ∧
      (UnitTester.sectionObject ⟨[], [], 0⟩ "A").1.pushed = "A" ∧
      UnitTesterSection.destroy (UnitTester.sectionObject ⟨[], [], 0⟩ "A").1
          (UnitTester.sectionObject (UnitTester.sectionObject ⟨[], [], 0⟩ "A").2 "B").2
        = some ⟨([] : List String) ++ ["A"], [], 0⟩) :=
  ⟨by decide,
    exit_removes_innermost ⟨"A"⟩ ["A", "B"] ["e"] 3 ⟨[], [], 0⟩ "A" "B" (by decide)⟩

/-- C12: in a well-nested sequence of calls on a freshly constructed recorder, the calls
before any section exit run without undefined behaviour and reach a non-empty section path, so
that exit pops an element; and the whole sequence runs without undefined behaviour. -/
theorem exit_never_on_empty_path (ops pre post : List Op) (h : WellNested ops)
    (hp : ops = pre ++ Op.leave :: post) :
    (∃ w w', run fresh pre = some w ∧ w.tester.sections ≠ [] ∧
      pop_back w.tester.sections = some w.tester.sections.dropLast ∧
      step w Op.leave = some w') ∧
    (∃ w, run fresh ops = some w) := by
  constructor
  · subst hp
    unfold WellNested at h
    rw [depthAfter_append] at h
    obtain ⟨j, hj, hrest⟩ := Option.bind_eq_some.mp h
    have hpos : j ≠ 0 := by
      intro h0
      subst h0
      simp [depthAfter] at hrest
    have hf := depthAfter_facts pre 0 j hj
    obtain ⟨w, hrun, hsec⟩ := run_fresh_sections pre j hj
    have hne : w.tester.sections ≠ [] := by
      intro h0
      rw [hsec] at h0
      rw [h0] at hf
      simp at hf
      omega
    exact ⟨w, _, hrun, hne, pop_back_of_ne_nil _ hne, step_leave w hne⟩
  · obtain ⟨w, hrun, _⟩ := run_wellNested ops fresh h
    exact ⟨w, hrun⟩

theorem exit_never_on_empty_path_witness :
    WellNested [Op.enter "A", Op.test "t" false, Op.enter "B", Op.leave, Op.leave] ∧
    [Op.enter "A", Op.test "t" false, Op.enter "B", Op.leave, Op.leave]
      = [Op.enter "A", Op.test "t" false, Op.enter "B", Op.leave] ++ Op.leave :: [] ∧
    ((∃ w w', run fresh [Op.enter "A", Op.test "t" false, Op.enter "B", Op.leave] = some w ∧
        w.tester.sections ≠ [] ∧
        pop_back w.tester.sections = some w.tester.sections.dropLast ∧
        step w Op.leave = some w') ∧
      (∃ w, run fresh [Op.enter "A", Op.test "t" false, Op.enter "B", Op.leave, Op.leave]
        = some w)) :=
  ⟨by decide, by decide,
    exit_never_on_empty_path _ [Op.enter "A", Op.test "t" false, Op.enter "B", Op.leave] []
      (by decide) (by decide)⟩

/-- C13: for every recorder state, message and condition, `test(message, b)` leaves the
section path as it was, and so does every run made of `test` calls only; entering a section
changes the path by a push. -/
theorem test_keeps_path (w : Session) (message : String) (b : Bool)
    (calls : List (String × Bool)) (name : String) :
    (UnitTester.test w.tester message b).1.sections = w.tester.sections ∧
    (∃ w', step w (Op.test message b) = some w' ∧
      w'.tester.sections = w.tester.sections) ∧
    (∃ w', run w (calls.map (fun x => Op.test x.1 x.2)) = some w' ∧
      w'.tester.sections = w.tester.sections) ∧
    (UnitTester.section w.tester name).sections ≠ w.tester.sections := by
  refine ⟨rfl, ⟨_, step_test w message b, rfl⟩, run_tests_sections calls w, ?_⟩
  intro h0
  have := congrArg List.length h0
  simp [UnitTester.section, UnitTesterSection.ctor, push_back] at this

/-- C14: for every recorder state and every name, entering a section leaves the failure list
and `test_count` as they were and prints nothing; and for every state with a section open,
exiting a section does the same: each changes the section path only. -/
theorem section_enter_exit_frame (w : Session) (name : String) (v : Session)
    (h : v.tester.sections ≠ []) :
    (UnitTester.section w.tester name).errors = w.tester.errors ∧
    (UnitTester.section w.tester name).test_count = w.tester.test_count ∧
    (∃ w', step w (Op.enter name) = some w' ∧
      w'.tester.errors = w.tester.errors ∧
      w'.tester.test_count = w.tester.test_count ∧
      w'.out = w.out) ∧
    (∃ t', UnitTesterSection.dtor v.tester = some t' ∧
      t'.errors = v.tester.errors ∧ t'.test_count = v.tester.test_count) ∧
    (∃ v', step v Op.leave = some v' ∧
      v'.tester.errors = v.tester.errors ∧
      v'.tester.test_count = v.tester.test_count ∧
      v'.out = v.out) := by
  refine ⟨rfl, rfl, ⟨_, step_enter w name, rfl, rfl, rfl⟩, ?_,
    ⟨_, step_leave v h, rfl, rfl, rfl⟩⟩
  exact ⟨{ v.tester with sections := v.tester.sections.dropLast },
    by simp [UnitTesterSection.dtor, pop_back_of_ne_nil _ h], rfl, rfl⟩

theorem section_enter_exit_frame_witness :
    (⟨⟨["A"], ["[A] t"], 1⟩, [OutLine.header, OutLine.assertion "[A] t ... failed"]⟩ :
      Session).tester.sections ≠ [] ∧
    ((UnitTester.section fresh.tester "").errors = fresh.tester.errors ∧
      (UnitTester.section fresh.tester "").test_count = fresh.tester.test_count ∧
      (∃ w', step fresh (Op.enter "") = some w' ∧
        w'.tester.errors = fresh.tester.errors ∧
        w'.tester.test_count = fresh.tester.test_count ∧
        w'.out = fresh.out) ∧
      (∃ t', UnitTesterSection.dtor ⟨["A"], ["[A] t"], 1⟩ = some t' ∧
        t'.errors = ["[A] t"] ∧ t'.test_count = 1) ∧
      (∃ v', step ⟨⟨["A"], ["[A] t"], 1⟩,
            [OutLine.header, OutLine.assertion "[A] t ... failed"]⟩ Op.leave = some v' ∧
        v'.tester.errors = ["[A] t"] ∧
        v'.tester.test_count = 1 ∧
        v'.out = [OutLine.header, OutLine.assertion "[A] t ... failed"])) :=
  ⟨by decide,
    section_enter_exit_frame fresh ""
      ⟨⟨["A"], ["[A] t"], 1⟩, [OutLine.header, OutLine.assertion "[A] t ... failed"]⟩
      (by decide)⟩

end UnitTest
